import Mathlib

/-!
Verification of the quote & validation engine of the token-swap form.

The TypeScript source is shallowly embedded as follows:
* JavaScript numbers are modelled by `JSNum`: a finite rational, `NaN`, or a
  signed infinity.  Floating-point rounding and overflow are not modelled:
  arithmetic on finite values is exact rational arithmetic.  Every claim under
  consideration is about NaN-propagation and algebraic structure, not about
  rounding.
* Strings are Lean `String`s (in this toolchain a wrapper around `List Char`);
  the character-level operations used by the source (`trim`, `replace(/,/g)`,
  `toUpperCase`, `charCodeAt`, `localeCompare`, `encodeURIComponent`) are
  modelled on `List Char` over the ASCII fragment relevant to token symbols:
  `toUpperCase` is `Char.toUpper` (basic-latin folding), `trim` strips the
  ASCII whitespace characters, and `localeCompare` is modelled as code-point
  lexicographic comparison.
* The untyped feed value consumed by `parsePrices` is the JSON-like type
  `JsonVal`; JavaScript property access on `null` throws, which the embedding
  reflects by letting `parsePrices` return `Except String (List Token)`.
-/

/-- Model of a JavaScript number: NaN, a signed infinity, or a finite value
(modelled exactly as a rational). -/
inductive JSNum where
  | nan
  | inf
  | negInf
  | finite (q : ℚ)
deriving DecidableEq, Repr

/-- Model of `Number.isFinite`. -/
def numIsFinite : JSNum → Bool
  | .finite _ => true
  | _ => false

/-- Model of the JavaScript comparison `x <= 0` (false on NaN and `+Infinity`). -/
def jsLe0 : JSNum → Bool
  | .finite q => q ≤ 0
  | .negInf => true
  | _ => false

/-- Model of the JavaScript comparison `x > b` for a finite right operand
(false on NaN and `-Infinity`). -/
def jsGtQ (a : JSNum) (b : ℚ) : Bool :=
  match a with
  | .finite q => b < q
  | .inf => true
  | _ => false

/-- JavaScript multiplication, at the (guarded) call sites of the source both
operands are always finite; non-finite operands yield NaN here. -/
def jsMul : JSNum → JSNum → JSNum
  | .finite a, .finite b => .finite (a * b)
  | _, _ => .nan

/-- JavaScript division; the source only divides finite values by a strictly
positive finite value, so only that case matters.  Division by zero is mapped
to the IEEE signed infinities for completeness. -/
def jsDiv : JSNum → JSNum → JSNum
  | .finite a, .finite b =>
      if b = 0 then (if a = 0 then .nan else if 0 < a then .inf else .negInf)
      else .finite (a / b)
  | _, _ => .nan

/-- ASCII whitespace recognised by the model of `String.prototype.trim`. -/
def isWS (c : Char) : Bool :=
  c.toNat = 32 ∨ c.toNat = 9 ∨ c.toNat = 10 ∨ c.toNat = 13 ∨ c.toNat = 11 ∨ c.toNat = 12

/-- Model of `String.prototype.trim` on character lists: drop whitespace from
both ends. -/
def trimList (cs : List Char) : List Char :=
  ((cs.dropWhile isWS).reverse.dropWhile isWS).reverse

/-- `trim` on strings. -/
def trimStr (s : String) : String := ⟨trimList s.data⟩

/-- Model of `toUpperCase` (basic-latin folding, as `Char.toUpper`). -/
def upperStr (s : String) : String := ⟨s.data.map Char.toUpper⟩

/-- Value of a digit run, most significant first. -/
def digitsVal (cs : List Char) : ℚ :=
  cs.foldl (fun a c => a * 10 + ((c.toNat - 48 : ℕ) : ℚ)) 0

/-- Value of the fractional digit run of a decimal literal. -/
def fracVal (cs : List Char) : ℚ := digitsVal cs / 10 ^ cs.length

/-- Exponent part of a decimal literal (everything after `e`/`E`): an optional
sign followed by at least one digit, consuming the whole remainder. -/
def expVal (cs : List Char) : Option ℤ :=
  let sr : ℤ × List Char :=
    match cs with
    | c :: rest => if c = '+' then (1, rest) else if c = '-' then (-1, rest) else (1, cs)
    | [] => (1, [])
  if sr.2 = [] ∨ ¬ sr.2.all Char.isDigit then none
  else some (sr.1 * ((sr.2.foldl (fun a c => a * 10 + (c.toNat - 48)) 0 : ℕ) : ℤ))

/-- Unsigned decimal literal: `digits`, `digits.digits`, `.digits` or
`digits.`, optionally followed by an exponent part.  `none` when the input is
not of this shape. -/
def decNumberVal (cs : List Char) : Option ℚ :=
  let ip := cs.takeWhile Char.isDigit
  let r1 := cs.dropWhile Char.isDigit
  let fr : List Char × List Char :=
    match r1 with
    | c :: rest =>
        if c = '.' then (rest.takeWhile Char.isDigit, rest.dropWhile Char.isDigit)
        else ([], r1)
    | [] => ([], [])
  if ip = [] ∧ fr.1 = [] then none
  else
    let mant := digitsVal ip + fracVal fr.1
    match fr.2 with
    | [] => some mant
    | c :: rest =>
        if c = 'e' ∨ c = 'E' then (expVal rest).map (fun e => mant * (10 : ℚ) ^ e)
        else none

/-- Model of the JavaScript string-to-number conversion `Number(s)`, restricted
to the forms relevant here: whitespace trimming, the empty string converting to
`0`, an optional sign, `Infinity`, and decimal literals with an optional
exponent.  Hexadecimal/octal/binary literals and double rounding/overflow are
outside the model. -/
def jsStringToNumber (cs : List Char) : JSNum :=
  match trimList cs with
  | [] => .finite 0
  | c :: rest =>
    let sb : ℚ × List Char :=
      if c = '+' then (1, rest) else if c = '-' then (-1, rest) else (1, c :: rest)
    if sb.2 = ['I', 'n', 'f', 'i', 'n', 'i', 't', 'y'] then
      if sb.1 = 1 then .inf else .negInf
    else
      match decNumberVal sb.2 with
      | some q => .finite (sb.1 * q)
      | none => .nan

/-- Embedding of `safeParseNumber`: remove all commas, trim, convert; the empty
remainder and every non-finite conversion yield NaN. -/
def safeParseNumber (v : String) : JSNum :=
  let cleaned := trimList (v.data.filter (fun c => c ≠ ','))
  if cleaned = [] then .nan
  else
    match jsStringToNumber cleaned with
    | .finite q => .finite q
    | _ => .nan

/-- Hexadecimal digit (uppercase), used by the `encodeURIComponent` model. -/
def hexDigit (n : ℕ) : Char := if n < 10 then Char.ofNat (48 + n) else Char.ofNat (55 + n)

/-- UTF-8 bytes of a code point. -/
def utf8Bytes (n : ℕ) : List ℕ :=
  if n < 128 then [n]
  else if n < 2048 then [192 + n / 64, 128 + n % 64]
  else if n < 65536 then [224 + n / 4096, 128 + n / 64 % 64, 128 + n % 64]
  else [240 + n / 262144, 128 + n / 4096 % 64, 128 + n / 64 % 64, 128 + n % 64]

/-- Characters that `encodeURIComponent` leaves unescaped. -/
def isUnreservedChar (c : Char) : Bool :=
  c.isAlpha ∨ c.isDigit ∨ c.toNat = 45 ∨ c.toNat = 95 ∨ c.toNat = 46 ∨ c.toNat = 33 ∨
    c.toNat = 126 ∨ c.toNat = 42 ∨ c.toNat = 39 ∨ c.toNat = 40 ∨ c.toNat = 41

/-- Model of `encodeURIComponent`. -/
def encodeURIComponent (s : String) : String :=
  ⟨s.data.foldr
    (fun c acc =>
      (if isUnreservedChar c then [c]
       else ((utf8Bytes c.toNat).map (fun b => ['%', hexDigit (b / 16), hexDigit (b % 16)])).flatten)
        ++ acc)
    []⟩

/-- Embedding of `iconUrl`. -/
def iconUrl (symbol : String) : String :=
  "https://raw.githubusercontent.com/Switcheo/token-icons/main/tokens/"
    ++ encodeURIComponent symbol ++ ".svg"

/-- Embedding of `pseudoBalance`: base-31 hash of the character codes, masked
to 32 bits by `>>> 0` at each step, reduced mod 9500, divided by 100 and
floored at 1.  The per-step mask is exact because the intermediate
`x * 31 + code` stays far below `2^53`. -/
def pseudoBalance (symbol : String) : ℚ :=
  let x := symbol.data.foldl (fun x c => (x * 31 + c.toNat) % 4294967296) 0
  let base : ℚ := ((x % 9500 : ℕ) : ℚ) / 100
  max 1 base

/-- A normalized token as produced by `parsePrices`. -/
structure Token where
  symbol : String
  price : ℚ
  iconUrl : String
deriving DecidableEq, Repr

/-- `tokenIn?.price ?? NaN`. -/
def priceOfOpt : Option Token → JSNum
  | some t => .finite t.price
  | none => .nan

/-- Embedding of the `rate` memo. -/
def rate (priceIn priceOut : JSNum) : JSNum :=
  if !numIsFinite priceIn || !numIsFinite priceOut || jsLe0 priceOut then .nan
  else jsDiv priceIn priceOut

/-- Embedding of the `amountOut` memo (`r` is the computed rate, `amtIn` the
debounced input amount). -/
def amountOut (r amtIn : JSNum) : JSNum :=
  if !numIsFinite r || !numIsFinite amtIn then .nan
  else if jsLe0 amtIn then .nan
  else jsMul amtIn r

/-- Embedding of the `minReceived` memo. -/
def minReceived (amtOut : JSNum) (slippageBps : ℤ) : JSNum :=
  if !numIsFinite amtOut then .nan
  else jsMul amtOut (.finite (1 - (slippageBps : ℚ) / 10000))

/-- Embedding of `inputUSD` (live amount times input price, guarded only by
finiteness of both). -/
def inputUSD (amtIn priceIn : JSNum) : JSNum :=
  if numIsFinite amtIn && numIsFinite priceIn then jsMul amtIn priceIn else .nan

/-- Embedding of `outputUSD`. -/
def outputUSD (amtOut priceOut : JSNum) : JSNum :=
  if numIsFinite amtOut && numIsFinite priceOut then jsMul amtOut priceOut else .nan

/-- The validator's verdict, `{ ok, msg }`. -/
structure Verdict where
  ok : Bool
  msg : String
deriving DecidableEq, Repr

/-- Embedding of the `validation` memo: the six rules in source order with
short-circuit. -/
def validation (tokenIn tokenOut : Option Token) (amountInRaw : String)
    (amountIn : JSNum) (balanceIn : ℚ) (amtOut : JSNum) : Verdict :=
  match tokenIn, tokenOut with
  | none, _ => ⟨false, "Pick tokens"⟩
  | _, none => ⟨false, "Pick tokens"⟩
  | some tIn, some tOut =>
    if tIn.symbol = tOut.symbol then ⟨false, "Pick two different tokens"⟩
    else if trimStr amountInRaw = "" then ⟨false, "Enter an amount"⟩
    else if !numIsFinite amountIn || jsLe0 amountIn then ⟨false, "Enter a valid amount"⟩
    else if jsGtQ amountIn balanceIn then ⟨false, "Insufficient balance"⟩
    else if !numIsFinite amtOut || jsLe0 amtOut then ⟨false, "Unable to quote price"⟩
    else ⟨true, ""⟩

/-- JSON-like value consumed by `parsePrices` (`unknown` in the source). -/
inductive JsonVal where
  | null
  | bool (b : Bool)
  | num (n : JSNum)
  | str (s : String)
  | arr (xs : List JsonVal)
  | obj (fields : List (String × JsonVal))

/-- Model of the JavaScript double-to-string conversion, only used when a
feed's symbol field is a number (no claim depends on its exact output). -/
def numToString : JSNum → String
  | .nan => "NaN"
  | .inf => "Infinity"
  | .negInf => "-Infinity"
  | .finite q => toString q

mutual

/-- Stringification of an array's elements for `String(...)`: elements joined
with commas, `null` elements becoming the empty string. -/
def jsToStringArr : List JsonVal → String
  | [] => ""
  | [v] => jsToStringElt v
  | v :: w :: rest => jsToStringElt v ++ "," ++ jsToStringArr (w :: rest)

/-- Stringification of a single array element (`null` stringifies to `""`
inside a join, unlike at top level). -/
def jsToStringElt : JsonVal → String
  | .null => ""
  | .bool b => if b then "true" else "false"
  | .num n => numToString n
  | .str s => s
  | .arr xs => jsToStringArr xs
  | .obj _ => "[object Object]"

end

/-- Model of `String(x)` at top level. -/
def jsToString : JsonVal → String
  | .null => "null"
  | .arr xs => jsToStringArr xs
  | v => jsToStringElt v

/-- JavaScript falsiness of a value. -/
def isFalsy : JsonVal → Bool
  | .null => true
  | .bool b => !b
  | .num (.finite q) => q = 0
  | .num .nan => true
  | .num _ => false
  | .str s => s = ""
  | _ => false

/-- Model of `symRaw || ''` where `none` stands for `undefined`. -/
def orEmptyStr : Option JsonVal → JsonVal
  | none => .str ""
  | some v => if isFalsy v then .str "" else v

/-- First field of the given name in an object's field list (JavaScript
objects never hold a duplicate key). -/
def getEntry : List (String × JsonVal) → String → Option JsonVal
  | [], _ => none
  | (k, v) :: rest, key => if k = key then some v else getEntry rest key

/-- Property access `row[k]` on a non-null value; `none` is `undefined`. -/
def getField (v : JsonVal) (k : String) : Option JsonVal :=
  match v with
  | .obj fs => getEntry fs k
  | _ => none

/-- Price coercion inside `push`: numeric strings via `Number(...)`, numbers
as themselves; any other value fails the `Number.isFinite` test, which NaN
captures. -/
def pushPrice : Option JsonVal → JSNum
  | some (.str s) => jsStringToNumber s.data
  | some (.num n) => n
  | _ => .nan

/-- Embedding of the `push` closure inside `parsePrices`: coerce the symbol to
a trimmed string (`String(symRaw || '').trim()`), coerce the price, and
silently drop the entry unless the symbol is non-empty and the price is finite
and strictly positive. -/
def push (symRaw priceRaw : Option JsonVal) (out : List Token) : List Token :=
  match pushPrice priceRaw with
  | .finite q =>
      if trimStr (jsToString (orEmptyStr symRaw)) = "" ∨ q ≤ 0 then out
      else out ++ [⟨trimStr (jsToString (orEmptyStr symRaw)), q,
        iconUrl (trimStr (jsToString (orEmptyStr symRaw)))⟩]
  | _ => out

/-- The array branch of `parsePrices`: `push(row.currency ?? row.symbol,
row.price)` for each row.  Property access on a `null` row throws a
`TypeError`, modelled as the `Except` error. -/
def collectRows : List JsonVal → List Token → Except String (List Token)
  | [], out => .ok out
  | row :: rest, out =>
    match row with
    | .null => .error "TypeError"
    | _ =>
      let sym : Option JsonVal :=
        match getField row "currency" with
        | none => getField row "symbol"
        | some .null => getField row "symbol"
        | some v => some v
      collectRows rest (push sym (getField row "price") out)

/-- The keyed-object branch of `parsePrices`: for each entry, use the value's
`price` field when the value is a non-null object containing one, otherwise
the value itself. -/
def collectEntries : List (String × JsonVal) → List Token → List Token
  | [], out => out
  | (k, v) :: rest, out =>
    let priceRaw : Option JsonVal :=
      match v with
      | .obj fs =>
        match getEntry fs "price" with
        | some pv => some pv
        | none => some v
      | _ => some v
    collectEntries rest (push (some (.str k)) priceRaw out)

/-- The collection phase of `parsePrices` (everything before de-dupe & sort):
arrays iterate rows, non-null objects iterate entries, anything else yields no
tokens. -/
def collect : JsonVal → Except String (List Token)
  | .arr rows => collectRows rows []
  | .obj fs => .ok (collectEntries fs [])
  | _ => .ok []

/-- `Map.prototype.set`: update in place when the key is present (keeping its
position), append otherwise. -/
def mapSet (m : List (String × Token)) (k : String) (v : Token) : List (String × Token) :=
  if m.any (fun p => p.1 = k) then m.map (fun p => if p.1 = k then (k, v) else p)
  else m ++ [(k, v)]

/-- The de-duplication map of `parsePrices`: insert every collected token under
its upper-cased symbol, upper-casing the stored symbol as well (the icon URL is
kept from the raw-cased occurrence). -/
def buildMap (out : List Token) : List (String × Token) :=
  out.foldl
    (fun m t => mapSet m (upperStr t.symbol) { t with symbol := upperStr t.symbol }) []

/-- Code-point lexicographic `≤` on character lists (the model of the
`localeCompare`-based comparator; token symbols here are ASCII). -/
def listLe : List Char → List Char → Bool
  | [], _ => true
  | _ :: _, [] => false
  | a :: as, b :: bs =>
    if a.toNat < b.toNat then true
    else if b.toNat < a.toNat then false
    else listLe as bs

/-- The sort comparator of `parsePrices` as a relation on tokens. -/
def symLe (a b : Token) : Prop := listLe a.symbol.data b.symbol.data = true

instance : DecidableRel symLe := fun a b =>
  inferInstanceAs (Decidable (listLe a.symbol.data b.symbol.data = true))

/-- `Array.prototype.sort` with the symbol comparator (the keys are distinct,
so any comparison sort computes the same list; insertion sort is used). -/
def sortTokens (l : List Token) : List Token := List.insertionSort symLe l

/-- Embedding of `parsePrices`: collect, de-dupe through the map, sort. -/
def parsePrices (data : JsonVal) : Except String (List Token) :=
  match collect data with
  | .error e => .error e
  | .ok out => .ok (sortTokens ((buildMap out).map Prod.snd))

/-- A produced token viewed as a JSON record, for re-injection into
`parsePrices` (field layout as in the source's object literal). -/
def tokenRecord (t : Token) : JsonVal :=
  .obj [("symbol", .str t.symbol), ("price", .num (.finite t.price)), ("iconUrl", .str t.iconUrl)]

/-- A produced token list viewed as a raw feed. -/
def reinject (l : List Token) : JsonVal := .arr (l.map tokenRecord)

/-- What re-normalizing a produced token gives back: same symbol and price,
icon URL rebuilt from the (already upper-cased) symbol. -/
def canonToken (t : Token) : Token := ⟨t.symbol, t.price, iconUrl t.symbol⟩

/-! ### Helper lemmas -/

theorem charEq_of_toNat {a b : Char} (h : a.toNat = b.toNat) : a = b :=
  Char.eq_of_val_eq (UInt32.ext h)

theorem toNat_ofNat_valid {n : ℕ} (h : n.isValidChar) : (Char.ofNat n).toNat = n := by
  unfold Char.ofNat
  rw [dif_pos h]
  rfl

theorem toNat_toUpper (c : Char) :
    c.toUpper.toNat = if 97 ≤ c.toNat ∧ c.toNat ≤ 122 then c.toNat - 32 else c.toNat := by
  unfold Char.toUpper
  split
  · next h =>
      rw [if_pos ⟨h.1, h.2⟩]
      exact toNat_ofNat_valid (Or.inl (by omega))
  · next h => rw [if_neg h]

theorem toUpper_eq_self {c : Char} (h : ¬(97 ≤ c.toNat ∧ c.toNat ≤ 122)) : c.toUpper = c := by
  unfold Char.toUpper
  exact if_neg h

theorem toUpper_toUpper (c : Char) : c.toUpper.toUpper = c.toUpper := by
  by_cases h : 97 ≤ c.toNat ∧ c.toNat ≤ 122
  · apply toUpper_eq_self
    rw [toNat_toUpper, if_pos h]
    omega
  · rw [toUpper_eq_self h, toUpper_eq_self h]

theorem isWS_toUpper (c : Char) : isWS c.toUpper = isWS c := by
  by_cases h : 97 ≤ c.toNat ∧ c.toNat ≤ 122
  · have hu : c.toUpper.toNat = c.toNat - 32 := by rw [toNat_toUpper, if_pos h]
    simp only [isWS, hu, decide_eq_decide]
    omega
  · rw [toUpper_eq_self h]

/-! ### Trimming lemmas -/

theorem head?_dropWhile {p : Char → Bool} :
    ∀ {l : List Char} {c : Char}, (l.dropWhile p).head? = some c → p c = false := by
  intro l
  induction l with
  | nil => intro c h; simp at h
  | cons a as ih =>
      intro c h
      rw [List.dropWhile_cons] at h
      by_cases hp : p a
      · rw [if_pos hp] at h
        exact ih h
      · rw [if_neg hp] at h
        simp at h
        rw [← h]
        simpa using hp

theorem dropWhile_eq_self {p : Char → Bool} {l : List Char}
    (h : ∀ c, l.head? = some c → p c = false) : l.dropWhile p = l := by
  cases l with
  | nil => rfl
  | cons a as =>
      rw [List.dropWhile_cons, if_neg]
      simp [h a rfl]

theorem getLast?_dropWhile {p : Char → Bool} :
    ∀ {l : List Char}, l.dropWhile p ≠ [] → (l.dropWhile p).getLast? = l.getLast? := by
  intro l
  induction l with
  | nil => intro h; simp at h
  | cons a as ih =>
      intro h
      rw [List.dropWhile_cons] at h ⊢
      by_cases hp : p a
      · rw [if_pos hp] at h ⊢
        have has : as ≠ [] := by
          intro hnil
          rw [hnil] at h
          simp at h
        rw [ih h]
        cases as with
        | nil => exact absurd rfl has
        | cons b bs => rw [List.getLast?_cons_cons]
      · rw [if_neg hp]

theorem trimList_head {l : List Char} {c : Char}
    (h : (trimList l).head? = some c) : isWS c = false := by
  unfold trimList at h
  rw [List.head?_reverse] at h
  set B := ((l.dropWhile isWS).reverse.dropWhile isWS) with hB
  have hBne : B ≠ [] := by
    intro hnil
    rw [hnil] at h
    simp at h
  rw [getLast?_dropWhile hBne, List.getLast?_reverse] at h
  exact head?_dropWhile h

theorem trimList_getLast {l : List Char} {c : Char}
    (h : (trimList l).getLast? = some c) : isWS c = false := by
  unfold trimList at h
  rw [List.getLast?_reverse] at h
  exact head?_dropWhile h

theorem trimList_eq_self {l : List Char}
    (h1 : ∀ c, l.head? = some c → isWS c = false)
    (h2 : ∀ c, l.getLast? = some c → isWS c = false) : trimList l = l := by
  unfold trimList
  rw [dropWhile_eq_self h1, dropWhile_eq_self, List.reverse_reverse]
  intro c hc
  rw [List.head?_reverse] at hc
  exact h2 c hc

/-- A string with no leading and no trailing whitespace (a fixed point of
`trim`). -/
def Trimmed (s : String) : Prop :=
  (∀ c, s.data.head? = some c → isWS c = false) ∧
    (∀ c, s.data.getLast? = some c → isWS c = false)

theorem trimStr_eq_self {s : String} (h : Trimmed s) : trimStr s = s := by
  cases s with
  | mk data =>
      show String.mk (trimList data) = String.mk data
      rw [trimList_eq_self h.1 h.2]

theorem trimmed_trimStr (s : String) : Trimmed (trimStr s) :=
  ⟨fun _ hc => trimList_head hc, fun _ hc => trimList_getLast hc⟩

theorem trimmed_upperStr {s : String} (h : Trimmed s) : Trimmed (upperStr s) := by
  constructor
  · intro c hc
    rw [show (upperStr s).data = s.data.map Char.toUpper from rfl, List.head?_map] at hc
    cases hd : s.data.head? with
    | none => rw [hd] at hc; simp at hc
    | some a =>
        rw [hd] at hc
        simp at hc
        rw [← hc, isWS_toUpper]
        exact h.1 a hd
  · intro c hc
    rw [show (upperStr s).data = s.data.map Char.toUpper from rfl, List.getLast?_map] at hc
    cases hd : s.data.getLast? with
    | none => rw [hd] at hc; simp at hc
    | some a =>
        rw [hd] at hc
        simp at hc
        rw [← hc, isWS_toUpper]
        exact h.2 a hd

theorem upperStr_upperStr (s : String) : upperStr (upperStr s) = upperStr s := by
  cases s with
  | mk data =>
      show String.mk ((data.map Char.toUpper).map Char.toUpper) = String.mk (data.map Char.toUpper)
      rw [List.map_map]
      congr 1
      exact List.map_congr_left (fun c _ => toUpper_toUpper c)

theorem string_eq_empty_iff (s : String) : s = "" ↔ s.data = [] := by
  cases s with
  | mk data =>
      constructor
      · intro h
        have := congrArg String.data h
        simpa using this
      · intro h
        have h2 : data = [] := by simpa using h
        show String.mk data = ""
        rw [h2]

theorem stringNe_empty_iff (s : String) : s ≠ "" ↔ s.data ≠ [] :=
  not_congr (string_eq_empty_iff s)

theorem upperStr_ne_empty {s : String} (h : s ≠ "") : upperStr s ≠ "" := by
  rw [stringNe_empty_iff] at h ⊢
  show s.data.map Char.toUpper ≠ []
  simpa using h

/-! ### Lexicographic comparator lemmas -/

theorem listLe_total : ∀ s t : List Char, listLe s t = true ∨ listLe t s = true := by
  intro s
  induction s with
  | nil => intro t; left; rfl
  | cons a as ih =>
      intro t
      cases t with
      | nil => right; rfl
      | cons b bs =>
          simp only [listLe]
          rcases Nat.lt_trichotomy a.toNat b.toNat with h | h | h
          · left; rw [if_pos h]
          · rw [if_neg (by omega), if_neg (by omega), if_neg (by omega), if_neg (by omega)]
            exact ih bs
          · right; rw [if_pos h]

theorem listLe_trans : ∀ s t u : List Char,
    listLe s t = true → listLe t u = true → listLe s u = true := by
  intro s
  induction s with
  | nil => intro t u _ _; rfl
  | cons a as ih =>
      intro t u h1 h2
      cases t with
      | nil => simp [listLe] at h1
      | cons b bs =>
          cases u with
          | nil => simp [listLe] at h2
          | cons c cs =>
              simp only [listLe] at h1 h2 ⊢
              by_cases hab : a.toNat < b.toNat <;> by_cases hbc : b.toNat < c.toNat
              · rw [if_pos (by omega)]
              · rw [if_neg hbc] at h2
                by_cases hcb : c.toNat < b.toNat
                · rw [if_pos hcb] at h2; exact absurd h2 (by simp)
                · rw [if_pos (by omega)]
              · rw [if_neg hab] at h1
                by_cases hba : b.toNat < a.toNat
                · rw [if_pos hba] at h1; exact absurd h1 (by simp)
                · rw [if_pos (by omega)]
              · rw [if_neg hab] at h1
                rw [if_neg hbc] at h2
                by_cases hba : b.toNat < a.toNat
                · rw [if_pos hba] at h1; exact absurd h1 (by simp)
                · by_cases hcb : c.toNat < b.toNat
                  · rw [if_pos hcb] at h2; exact absurd h2 (by simp)
                  · rw [if_neg hba] at h1
                    rw [if_neg hcb] at h2
                    rw [if_neg (by omega), if_neg (by omega)]
                    exact ih bs cs h1 h2

theorem listLe_antisymm : ∀ s t : List Char,
    listLe s t = true → listLe t s = true → s = t := by
  intro s
  induction s with
  | nil =>
      intro t _ h2
      cases t with
      | nil => rfl
      | cons b bs => simp [listLe] at h2
  | cons a as ih =>
      intro t h1 h2
      cases t with
      | nil => simp [listLe] at h1
      | cons b bs =>
          simp only [listLe] at h1 h2
          by_cases hab : a.toNat < b.toNat
          · rw [if_neg (by omega), if_pos hab] at h2
            exact absurd h2 (by simp)
          · by_cases hba : b.toNat < a.toNat
            · rw [if_neg hab, if_pos hba] at h1
              exact absurd h1 (by simp)
            · rw [if_neg hab, if_neg hba] at h1
              rw [if_neg hba, if_neg hab] at h2
              have : a = b := charEq_of_toNat (by omega)
              rw [this, ih bs h1 h2]

instance : IsTotal Token symLe := ⟨fun a b => listLe_total a.symbol.data b.symbol.data⟩

instance : IsTrans Token symLe :=
  ⟨fun a b c h1 h2 => listLe_trans a.symbol.data b.symbol.data c.symbol.data h1 h2⟩

/-! ### Pipeline invariants -/

/-- What `push` guarantees about every token it appends. -/
def Pushed (t : Token) : Prop :=
  t.symbol ≠ "" ∧ Trimmed t.symbol ∧ 0 < t.price ∧ t.iconUrl = iconUrl t.symbol

/-- What the de-duplication map guarantees about every stored token. -/
def Canon (t : Token) : Prop :=
  t.symbol ≠ "" ∧ Trimmed t.symbol ∧ upperStr t.symbol = t.symbol ∧ 0 < t.price ∧
    ∃ s, t.symbol = upperStr s ∧ t.iconUrl = iconUrl s

theorem push_subset {sr pr : Option JsonVal} {out : List Token} {t : Token}
    (h : t ∈ push sr pr out) : t ∈ out ∨ Pushed t := by
  unfold push at h
  split at h
  next q heq =>
    by_cases hg : trimStr (jsToString (orEmptyStr sr)) = "" ∨ q ≤ 0
    · rw [if_pos hg] at h
      exact Or.inl h
    · rw [if_neg hg] at h
      rcases List.mem_append.1 h with hmem | hmem
      · exact Or.inl hmem
      · simp at hmem
        push_neg at hg
        refine Or.inr ?_
        rw [hmem]
        exact ⟨hg.1, trimmed_trimStr _, hg.2, rfl⟩
  next => exact Or.inl h

theorem collectRows_subset :
    ∀ {rows : List JsonVal} {out res : List Token}, collectRows rows out = .ok res →
      ∀ t ∈ res, t ∈ out ∨ Pushed t := by
  intro rows
  induction rows with
  | nil =>
      intro out res h t ht
      simp only [collectRows] at h
      cases h
      exact Or.inl ht
  | cons row rest ih =>
      intro out res h t ht
      cases row with
      | null => simp [collectRows] at h
      | bool b =>
          rcases ih h t ht with hin | hp
          · exact push_subset hin
          · exact Or.inr hp
      | num n =>
          rcases ih h t ht with hin | hp
          · exact push_subset hin
          · exact Or.inr hp
      | str s =>
          rcases ih h t ht with hin | hp
          · exact push_subset hin
          · exact Or.inr hp
      | arr xs =>
          rcases ih h t ht with hin | hp
          · exact push_subset hin
          · exact Or.inr hp
      | obj fs =>
          rcases ih h t ht with hin | hp
          · exact push_subset hin
          · exact Or.inr hp

theorem collectEntries_subset :
    ∀ {fs : List (String × JsonVal)} {out : List Token},
      ∀ t ∈ collectEntries fs out, t ∈ out ∨ Pushed t := by
  intro fs
  induction fs with
  | nil => intro out t ht; exact Or.inl ht
  | cons kv rest ih =>
      intro out t ht
      rcases ih t ht with hin | hp
      · exact push_subset hin
      · exact Or.inr hp

theorem collect_pushed {data : JsonVal} {out : List Token}
    (h : collect data = .ok out) : ∀ t ∈ out, Pushed t := by
  intro t ht
  cases data with
  | arr rows =>
      rcases collectRows_subset h t ht with hin | hp
      · simp at hin
      · exact hp
  | obj fs =>
      simp only [collect] at h
      cases h
      rcases collectEntries_subset t ht with hin | hp
      · simp at hin
      · exact hp
  | null => simp only [collect] at h; cases h; simp at ht
  | bool b => simp only [collect] at h; cases h; simp at ht
  | num n => simp only [collect] at h; cases h; simp at ht
  | str s => simp only [collect] at h; cases h; simp at ht

theorem mapSet_mem {m : List (String × Token)} {k : String} {v : Token}
    {p : String × Token} (h : p ∈ mapSet m k v) : p ∈ m ∨ p = (k, v) := by
  unfold mapSet at h
  by_cases ha : m.any (fun p => p.1 = k)
  · rw [if_pos ha] at h
    rcases List.mem_map.1 h with ⟨q, hq, hqe⟩
    by_cases hk : q.1 = k
    · rw [if_pos hk] at hqe
      exact Or.inr hqe.symm
    · rw [if_neg hk] at hqe
      exact Or.inl (hqe ▸ hq)
  · rw [if_neg ha] at h
    rcases List.mem_append.1 h with hm | hm
    · exact Or.inl hm
    · simp at hm
      exact Or.inr hm

theorem buildMap_inv_aux :
    ∀ (out : List Token) (m : List (String × Token)),
      (∀ p ∈ m, p.1 = p.2.symbol ∧ Canon p.2) → (∀ t ∈ out, Pushed t) →
      ∀ p ∈ out.foldl
          (fun m t => mapSet m (upperStr t.symbol) { t with symbol := upperStr t.symbol }) m,
        p.1 = p.2.symbol ∧ Canon p.2 := by
  intro out
  induction out with
  | nil => intro m hm _ p hp; exact hm p hp
  | cons t rest ih =>
      intro m hm hout p hp
      simp only [List.foldl_cons] at hp
      refine ih _ ?_ (fun u hu => hout u (List.mem_cons_of_mem _ hu)) p hp
      intro q hq
      rcases mapSet_mem hq with hqm | hqe
      · exact hm q hqm
      · obtain ⟨hne, htrim, hpos, hicon⟩ := hout t (List.mem_cons_self _ _)
        rw [hqe]
        refine ⟨rfl, upperStr_ne_empty hne, trimmed_upperStr htrim, upperStr_upperStr _, hpos,
          t.symbol, rfl, hicon⟩

theorem buildMap_inv {out : List Token} (h : ∀ t ∈ out, Pushed t) :
    ∀ p ∈ buildMap out, p.1 = p.2.symbol ∧ Canon p.2 :=
  buildMap_inv_aux out [] (fun p hp => absurd hp (List.not_mem_nil p)) h

theorem keys_mapSet (m : List (String × Token)) (k : String) (v : Token) :
    (mapSet m k v).map Prod.fst =
      if m.any (fun p => p.1 = k) then m.map Prod.fst else m.map Prod.fst ++ [k] := by
  unfold mapSet
  by_cases ha : m.any (fun p => p.1 = k)
  · rw [if_pos ha, if_pos ha, List.map_map]
    apply List.map_congr_left
    intro p _
    by_cases hk : p.1 = k
    · simp [hk]
    · simp [hk]
  · rw [if_neg ha, if_neg ha]
    simp

theorem keys_nodup_mapSet {m : List (String × Token)} {k : String} {v : Token}
    (h : (m.map Prod.fst).Nodup) : ((mapSet m k v).map Prod.fst).Nodup := by
  rw [keys_mapSet]
  by_cases ha : m.any (fun p => p.1 = k)
  · rw [if_pos ha]; exact h
  · rw [if_neg ha]
    have hk : k ∉ m.map Prod.fst := by
      intro hmem
      rcases List.mem_map.1 hmem with ⟨p, hp, hpe⟩
      apply ha
      rw [List.any_eq_true]
      exact ⟨p, hp, by simp [hpe]⟩
    exact ((List.perm_append_singleton _ _).nodup_iff).2 (List.nodup_cons.2 ⟨hk, h⟩)

theorem buildMap_keys_nodup_aux :
    ∀ (out : List Token) (m : List (String × Token)), (m.map Prod.fst).Nodup →
      ((out.foldl
          (fun m t => mapSet m (upperStr t.symbol) { t with symbol := upperStr t.symbol }) m).map
        Prod.fst).Nodup := by
  intro out
  induction out with
  | nil => intro m hm; exact hm
  | cons t rest ih =>
      intro m hm
      simp only [List.foldl_cons]
      exact ih _ (keys_nodup_mapSet hm)

theorem buildMap_keys_nodup (out : List Token) : ((buildMap out).map Prod.fst).Nodup :=
  buildMap_keys_nodup_aux out [] (by simp)

theorem parsePrices_ok {data : JsonVal} {l : List Token} (h : parsePrices data = .ok l) :
    ∃ out, collect data = .ok out ∧ l = sortTokens ((buildMap out).map Prod.snd) := by
  unfold parsePrices at h
  cases hc : collect data with
  | error e => rw [hc] at h; cases h
  | ok out =>
      rw [hc] at h
      cases h
      exact ⟨out, rfl, rfl⟩

/-- Lookup in the de-duplication map. -/
def lookupTok : List (String × Token) → String → Option Token
  | [], _ => none
  | p :: rest, key => if p.1 = key then some p.2 else lookupTok rest key

theorem lookupTok_map_update {k u : String} {v : Token} (h : u ≠ k) :
    ∀ m : List (String × Token),
      lookupTok (m.map fun p => if p.1 = k then (k, v) else p) u = lookupTok m u := by
  intro m
  induction m with
  | nil => rfl
  | cons p m ih =>
      simp only [List.map_cons, lookupTok]
      by_cases hp : p.1 = k
      · rw [if_pos hp]
        rw [if_neg (show ¬(((k, v) : String × Token).1 = u) from fun hh => h hh.symm),
          if_neg (show ¬(p.1 = u) from fun hh => h (hh ▸ hp))]
        exact ih
      · rw [if_neg hp]
        by_cases hu : p.1 = u
        · rw [if_pos hu, if_pos hu]
        · rw [if_neg hu, if_neg hu]
          exact ih

theorem lookupTok_update_self {k : String} {v : Token} :
    ∀ m : List (String × Token), m.any (fun p => p.1 = k) = true →
      lookupTok (m.map fun p => if p.1 = k then (k, v) else p) k = some v := by
  intro m
  induction m with
  | nil => intro h; simp at h
  | cons p m ih =>
      intro h
      simp only [List.map_cons, lookupTok]
      by_cases hp : p.1 = k
      · rw [if_pos hp, if_pos rfl]
      · rw [if_neg hp, if_neg hp]
        apply ih
        simp only [List.any_cons, Bool.or_eq_true] at h
        rcases h with h | h
        · exact absurd (by simpa using h) hp
        · exact h

theorem lookupTok_append_new {k u : String} {v : Token} :
    ∀ m : List (String × Token), m.any (fun p => p.1 = k) = false →
      lookupTok (m ++ [(k, v)]) u = if u = k then some v else lookupTok m u := by
  intro m
  induction m with
  | nil =>
      intro _
      simp only [List.nil_append, lookupTok]
      by_cases hu : u = k
      · rw [if_pos (by rw [hu]), if_pos hu]
      · rw [if_neg (fun hh => hu (by rw [← hh])), if_neg hu]
  | cons p m ih =>
      intro h
      simp only [List.any_cons, Bool.or_eq_false_iff] at h
      simp only [List.cons_append, lookupTok]
      by_cases hu : p.1 = u
      · have hne : ¬(u = k) := by
          intro he
          have hpk : p.1 = k := by rw [hu, he]
          rcases h with ⟨h1, _⟩
          rw [hpk] at h1
          simp at h1
        rw [if_pos hu, if_neg hne, if_pos hu]
      · rw [if_neg hu, if_neg hu]
        exact ih (by simpa using h.2)

theorem lookupTok_mapSet (m : List (String × Token)) (k u : String) (v : Token) :
    lookupTok (mapSet m k v) u = if u = k then some v else lookupTok m u := by
  unfold mapSet
  by_cases ha : m.any (fun p => p.1 = k)
  · rw [if_pos ha]
    by_cases hu : u = k
    · rw [if_pos hu, hu]
      exact lookupTok_update_self m ha
    · rw [if_neg hu]
      exact lookupTok_map_update hu m
  · rw [if_neg ha]
    exact lookupTok_append_new m (Bool.eq_false_iff.mpr ha)

theorem buildMap_snoc (xs : List Token) (t : Token) :
    buildMap (xs ++ [t]) =
      mapSet (buildMap xs) (upperStr t.symbol) { t with symbol := upperStr t.symbol } := by
  unfold buildMap
  rw [List.foldl_append]
  rfl

theorem buildMap_lookup (u : String) :
    ∀ out : List Token, lookupTok (buildMap out) u =
      ((out.filter (fun t => upperStr t.symbol = u)).getLast?).map
        (fun t => ⟨u, t.price, t.iconUrl⟩) := by
  intro out
  induction out using List.reverseRecOn with
  | nil => rfl
  | append_singleton xs t ih =>
      rw [buildMap_snoc, lookupTok_mapSet, List.filter_append]
      by_cases hu : upperStr t.symbol = u
      · rw [if_pos hu.symm]
        have hf : List.filter (fun t => decide (upperStr t.symbol = u)) [t] = [t] := by
          simp [hu]
        rw [hf, List.getLast?_concat]
        cases t with
        | mk sym pr ic => simp [← hu]
      · rw [if_neg (fun hh => hu hh.symm)]
        have hf : List.filter (fun t => decide (upperStr t.symbol = u)) [t] = [] := by
          simp [hu]
        rw [hf, List.append_nil]
        exact ih

theorem filter_values_eq_nil {u : String} :
    ∀ m : List (String × Token), (∀ p ∈ m, p.1 = p.2.symbol) → (∀ p ∈ m, p.1 ≠ u) →
      (m.map Prod.snd).filter (fun t => t.symbol = u) = [] := by
  intro m hkey hne
  rw [List.filter_eq_nil_iff]
  intro t ht
  rcases List.mem_map.1 ht with ⟨p, hp, hpe⟩
  simp only [decide_eq_true_eq]
  intro he
  exact hne p hp (by rw [hkey p hp, hpe, he])

theorem values_filter (u : String) :
    ∀ m : List (String × Token), (∀ p ∈ m, p.1 = p.2.symbol) → (m.map Prod.fst).Nodup →
      (m.map Prod.snd).filter (fun t => t.symbol = u) =
        (lookupTok m u).elim [] (fun t => [t]) := by
  intro m
  induction m with
  | nil => intro _ _; rfl
  | cons p m ih =>
      intro hkey hnd
      simp only [List.map_cons, List.nodup_cons] at hnd
      simp only [List.map_cons, List.filter_cons, lookupTok]
      by_cases hu : p.1 = u
      · have hsym : p.2.symbol = u := by rw [← hkey p (List.mem_cons_self _ _), hu]
        rw [if_pos (by simp [hsym]), if_pos hu]
        have : (m.map Prod.snd).filter (fun t => t.symbol = u) = [] := by
          apply filter_values_eq_nil m (fun q hq => hkey q (List.mem_cons_of_mem _ hq))
          intro q hq he
          have hq1 : q.1 = p.1 := by rw [he, ← hu]
          exact hnd.1 (hq1 ▸ List.mem_map_of_mem Prod.fst hq)
        rw [this]
        rfl
      · have hsym : ¬(p.2.symbol = u) := fun he =>
          hu (by rw [hkey p (List.mem_cons_self _ _), he])
        rw [if_neg (by simp [hsym]), if_neg hu]
        exact ih (fun q hq => hkey q (List.mem_cons_of_mem _ hq)) hnd.2

theorem parsePrices_inv {data : JsonVal} {l : List Token} (h : parsePrices data = .ok l) :
    (∀ t ∈ l, Canon t) ∧ (l.map (fun t => t.symbol)).Nodup ∧ l.Sorted symLe := by
  obtain ⟨out, hc, hl⟩ := parsePrices_ok h
  have hpush := collect_pushed hc
  have hinv := buildMap_inv hpush
  have hperm : List.Perm (sortTokens ((buildMap out).map Prod.snd))
      ((buildMap out).map Prod.snd) := List.perm_insertionSort symLe _
  refine ⟨?_, ?_, ?_⟩
  · intro t ht
    rw [hl] at ht
    have := hperm.mem_iff.1 ht
    rcases List.mem_map.1 this with ⟨p, hp, hpe⟩
    exact hpe ▸ (hinv p hp).2
  · rw [hl]
    have hkeys : ((buildMap out).map Prod.snd).map (fun t => t.symbol)
        = (buildMap out).map Prod.fst := by
      rw [List.map_map]
      exact List.map_congr_left (fun p hp => ((hinv p hp).1).symm)
    have : List.Perm ((sortTokens ((buildMap out).map Prod.snd)).map (fun t => t.symbol))
        ((buildMap out).map Prod.fst) := hkeys ▸ hperm.map _
    exact this.nodup_iff.2 (buildMap_keys_nodup out)
  · rw [hl]
    exact List.sorted_insertionSort symLe _

theorem sortTokens_sorted_eq {l : List Token} (h : l.Sorted symLe) : sortTokens l = l :=
  List.Sorted.insertionSort_eq h

theorem collectRows_no_null :
    ∀ (rows : List JsonVal) (out : List Token), JsonVal.null ∉ rows →
      ∃ res, collectRows rows out = .ok res := by
  intro rows
  induction rows with
  | nil => intro out _; exact ⟨out, rfl⟩
  | cons row rest ih =>
      intro out hn
      have hrow : row ≠ JsonVal.null := fun he => hn (he ▸ List.mem_cons_self _ _)
      have hrest : JsonVal.null ∉ rest := fun he => hn (List.mem_cons_of_mem _ he)
      cases row with
      | null => exact absurd rfl hrow
      | bool b => exact ih _ hrest
      | num n => exact ih _ hrest
      | str s => exact ih _ hrest
      | arr xs => exact ih _ hrest
      | obj fs => exact ih _ hrest

theorem parsePrices_total {data : JsonVal}
    (h : ∀ rows, data = .arr rows → JsonVal.null ∉ rows) :
    ∃ l, parsePrices data = .ok l := by
  cases data with
  | arr rows =>
      obtain ⟨res, hres⟩ := collectRows_no_null rows [] (h rows rfl)
      refine ⟨sortTokens ((buildMap res).map Prod.snd), ?_⟩
      unfold parsePrices
      rw [show collect (.arr rows) = .ok res from hres]
  | null => exact ⟨_, rfl⟩
  | bool b => exact ⟨_, rfl⟩
  | num n => exact ⟨_, rfl⟩
  | str s => exact ⟨_, rfl⟩
  | obj fs => exact ⟨_, rfl⟩

theorem push_canonical {s : String} {q : ℚ} (hne : s ≠ "") (htrim : Trimmed s) (hpos : 0 < q)
    (out : List Token) :
    push (some (.str s)) (some (.num (.finite q))) out = out ++ [⟨s, q, iconUrl s⟩] := by
  have horel : orEmptyStr (some (.str s)) = .str s := by
    unfold orEmptyStr isFalsy
    simp [hne]
  have htr : trimStr (jsToString (orEmptyStr (some (.str s)))) = s := by
    rw [horel]
    show trimStr s = s
    exact trimStr_eq_self htrim
  unfold push
  simp only [pushPrice, htr]
  rw [if_neg]
  push_neg
  exact ⟨hne, hpos⟩

theorem collectRows_reinject :
    ∀ (l out : List Token), (∀ t ∈ l, Canon t) →
      collectRows (l.map tokenRecord) out = .ok (out ++ l.map canonToken) := by
  intro l
  induction l with
  | nil => intro out _; simp [collectRows]
  | cons t l ih =>
      intro out hc
      obtain ⟨hne, htrim, hupper, hpos, _⟩ := hc t (List.mem_cons_self _ _)
      have hstep : collectRows ((t :: l).map tokenRecord) out
          = collectRows (l.map tokenRecord)
              (push (some (.str t.symbol)) (some (.num (.finite t.price))) out) := rfl
      rw [hstep, push_canonical hne htrim hpos,
        ih _ (fun u hu => hc u (List.mem_cons_of_mem _ hu))]
      simp [canonToken]

theorem buildMap_canonical :
    ∀ (l : List Token) (m : List (String × Token)),
      (∀ t ∈ l, upperStr t.symbol = t.symbol) →
      (∀ t ∈ l, m.any (fun p => p.1 = t.symbol) = false) →
      (l.map (fun t => t.symbol)).Nodup →
      l.foldl (fun m t => mapSet m (upperStr t.symbol) { t with symbol := upperStr t.symbol }) m
        = m ++ l.map (fun t => (t.symbol, t)) := by
  intro l
  induction l with
  | nil => intro m _ _ _; simp
  | cons t l ih =>
      intro m hup hnew hnd
      have hu := hup t (List.mem_cons_self _ _)
      have hany : m.any (fun p => p.1 = t.symbol) = false := hnew t (List.mem_cons_self _ _)
      simp only [List.foldl_cons]
      have hms : mapSet m (upperStr t.symbol) { t with symbol := upperStr t.symbol }
          = m ++ [(t.symbol, t)] := by
        unfold mapSet
        rw [hu, hany]
        cases t with
        | mk ts tp ti => simp
      rw [hms, ih]
      · simp
      · exact fun u hu2 => hup u (List.mem_cons_of_mem _ hu2)
      · intro u hu2
        simp only [List.any_append, Bool.or_eq_false_iff]
        constructor
        · exact hnew u (List.mem_cons_of_mem _ hu2)
        · have hts : t.symbol ≠ u.symbol := by
            simp only [List.map_cons, List.nodup_cons] at hnd
            intro he
            exact hnd.1 (he ▸ List.mem_map_of_mem _ hu2)
          simp [hts]
      · simp only [List.map_cons, List.nodup_cons] at hnd
        exact hnd.2

theorem parsePrices_reinject_aux {data : JsonVal} {l : List Token}
    (h : parsePrices data = .ok l) :
    parsePrices (reinject l) = .ok (l.map canonToken) := by
  obtain ⟨hcanon, hnd, hsort⟩ := parsePrices_inv h
  have hcoll : collect (reinject l) = .ok (l.map canonToken) := by
    show collectRows (l.map tokenRecord) [] = _
    rw [collectRows_reinject l [] hcanon]
    simp
  have hup : ∀ u ∈ l.map canonToken, upperStr u.symbol = u.symbol := by
    intro u hu
    rcases List.mem_map.1 hu with ⟨t, ht, rfl⟩
    show upperStr t.symbol = t.symbol
    exact (hcanon t ht).2.2.1
  have hndf : ((l.map canonToken).map (fun t => t.symbol)).Nodup := by
    rw [List.map_map]
    exact hnd
  have hbm : buildMap (l.map canonToken) = (l.map canonToken).map (fun t => (t.symbol, t)) := by
    have hb := buildMap_canonical (l.map canonToken) [] hup (fun _ _ => rfl) hndf
    simpa using hb
  have hsortf : (l.map canonToken).Sorted symLe := by
    apply List.Pairwise.map
    · intro a b hab
      exact hab
    · exact hsort
  have hvals : (buildMap (l.map canonToken)).map Prod.snd = l.map canonToken := by
    rw [hbm, List.map_map]
    have hfun : (Prod.snd ∘ fun t : Token => (t.symbol, t)) = id := rfl
    rw [hfun, List.map_id]
  unfold parsePrices
  rw [hcoll]
  show Except.ok (sortTokens ((buildMap (l.map canonToken)).map Prod.snd)) = _
  rw [hvals, sortTokens_sorted_eq hsortf]


/-! ### Quote-engine component lemmas -/

theorem rate_eq (pIn pOut : JSNum) :
    (∀ p q, pIn = .finite p → pOut = .finite q → 0 < q → rate pIn pOut = .finite (p / q)) ∧
    ((¬ ∃ p q, pIn = .finite p ∧ pOut = .finite q ∧ 0 < q) → rate pIn pOut = .nan) := by
  cases pIn with
  | finite p =>
      cases pOut with
      | finite q =>
          by_cases hq : q ≤ 0
          · constructor
            · intro a b ha hb hpos
              cases ha
              cases hb
              exact absurd hpos (not_lt.2 hq)
            · intro _
              simp [rate, numIsFinite, jsLe0, hq]
          · constructor
            · intro a b ha hb _
              cases ha
              cases hb
              have hq0 : ¬(q = 0) := fun h0 => hq (le_of_eq h0)
              simp [rate, numIsFinite, jsLe0, hq, jsDiv, hq0]
            · intro hne
              exact absurd ⟨p, q, rfl, rfl, lt_of_not_le hq⟩ hne
      | nan => exact ⟨(fun a b _ hb => nomatch hb), (fun _ => by simp [rate, numIsFinite])⟩
      | inf => exact ⟨(fun a b _ hb => nomatch hb), (fun _ => by simp [rate, numIsFinite])⟩
      | negInf => exact ⟨(fun a b _ hb => nomatch hb), (fun _ => by simp [rate, numIsFinite])⟩
  | nan => exact ⟨(fun a b ha _ => nomatch ha), (fun _ => by simp [rate, numIsFinite])⟩
  | inf => exact ⟨(fun a b ha _ => nomatch ha), (fun _ => by simp [rate, numIsFinite])⟩
  | negInf => exact ⟨(fun a b ha _ => nomatch ha), (fun _ => by simp [rate, numIsFinite])⟩

theorem amountOut_eq (r amt : JSNum) :
    (∀ p a, r = .finite p → amt = .finite a → 0 < a → amountOut r amt = .finite (a * p)) ∧
    ((¬ ∃ p a, r = .finite p ∧ amt = .finite a ∧ 0 < a) → amountOut r amt = .nan) := by
  cases r with
  | finite p =>
      cases amt with
      | finite a =>
          by_cases ha : a ≤ 0
          · constructor
            · intro b c hb hc hpos
              cases hb
              cases hc
              exact absurd hpos (not_lt.2 ha)
            · intro _
              simp [amountOut, numIsFinite, jsLe0, ha]
          · constructor
            · intro b c hb hc _
              cases hb
              cases hc
              simp [amountOut, numIsFinite, jsLe0, ha, jsMul]
            · intro hne
              exact absurd ⟨p, a, rfl, rfl, lt_of_not_le ha⟩ hne
      | nan => exact ⟨(fun b c _ hc => nomatch hc), (fun _ => by simp [amountOut, numIsFinite])⟩
      | inf => exact ⟨(fun b c _ hc => nomatch hc), (fun _ => by simp [amountOut, numIsFinite])⟩
      | negInf => exact ⟨(fun b c _ hc => nomatch hc), (fun _ => by simp [amountOut, numIsFinite])⟩
  | nan => exact ⟨(fun b c hb _ => nomatch hb), (fun _ => by simp [amountOut, numIsFinite])⟩
  | inf => exact ⟨(fun b c hb _ => nomatch hb), (fun _ => by simp [amountOut, numIsFinite])⟩
  | negInf => exact ⟨(fun b c hb _ => nomatch hb), (fun _ => by simp [amountOut, numIsFinite])⟩

theorem amountOut_nan_or_finite (r amt : JSNum) :
    amountOut r amt = .nan ∨ ∃ b, amountOut r amt = .finite b := by
  cases r with
  | finite p =>
      cases amt with
      | finite a =>
          by_cases ha : a ≤ 0
          · left
            simp [amountOut, numIsFinite, jsLe0, ha]
          · right
            exact ⟨a * p, by simp [amountOut, numIsFinite, jsLe0, ha, jsMul]⟩
      | nan => left; simp [amountOut, numIsFinite]
      | inf => left; simp [amountOut, numIsFinite]
      | negInf => left; simp [amountOut, numIsFinite]
  | nan => left; simp [amountOut, numIsFinite]
  | inf => left; simp [amountOut, numIsFinite]
  | negInf => left; simp [amountOut, numIsFinite]

theorem minReceived_eq (x : JSNum) (slip : ℤ) :
    (∀ b, x = .finite b → minReceived x slip = .finite (b * (1 - (slip : ℚ) / 10000))) ∧
    (x = .nan → minReceived x slip = .nan) := by
  cases x with
  | finite b =>
      constructor
      · intro c hc
        cases hc
        simp [minReceived, numIsFinite, jsMul]
      · intro h
        exact nomatch h
  | nan => exact ⟨(fun c hc => nomatch hc), (fun _ => by simp [minReceived, numIsFinite])⟩
  | inf => exact ⟨(fun c hc => nomatch hc), (fun _ => by simp [minReceived, numIsFinite])⟩
  | negInf => exact ⟨(fun c hc => nomatch hc), (fun _ => by simp [minReceived, numIsFinite])⟩

/-! ### Concrete feeds for the end-to-end facts -/

/-- The keyed-object feed of spec scenario 1. -/
def btcEthFeed : JsonVal := .obj [("BTC", .num (.finite 50000)), ("ETH", .num (.finite 3000))]

/-- Its normalization. -/
def btcEthTokens : List Token :=
  [⟨"BTC", 50000, iconUrl "BTC"⟩, ⟨"ETH", 3000, iconUrl "ETH"⟩]

/-- The duplicate-symbol feed of spec scenario 5. -/
def usdtFeed : JsonVal :=
  .arr [.obj [("currency", .str "usdt"), ("price", .str "1.00")],
    .obj [("currency", .str "USDT"), ("price", .num (.finite 2))]]

/-- The accepted entries of `usdtFeed`, in iteration order, before de-dupe. -/
def usdtCollected : List Token := [⟨"usdt", 1, iconUrl "usdt"⟩, ⟨"USDT", 2, iconUrl "USDT"⟩]

/-- A feed whose only symbol is lower-case in the raw data. -/
def lowerFeed : JsonVal := .arr [.obj [("currency", .str "usdt"), ("price", .num (.finite 1))]]

/-- The same feed with the symbol upper-cased in the raw data. -/
def upperFeed : JsonVal := .arr [.obj [("currency", .str "USDT"), ("price", .num (.finite 1))]]

/-! ### The validator's six rules as propositions -/

/-- Rule 1: both tokens selected. -/
def bothSelected (tokenIn tokenOut : Option Token) : Prop := tokenIn ≠ none ∧ tokenOut ≠ none

/-- Rule 2: the selected tokens have distinct symbols. -/
def distinctSymbols (tokenIn tokenOut : Option Token) : Prop :=
  ∀ a b, tokenIn = some a → tokenOut = some b → a.symbol ≠ b.symbol

/-- Rule 3: the raw amount text is non-empty after trimming. -/
def amountTextPresent (amountInRaw : String) : Prop := trimStr amountInRaw ≠ ""

/-- Rule 4: the parsed amount is a finite number strictly greater than 0. -/
def amountValid (amountIn : JSNum) : Prop := ∃ q, amountIn = .finite q ∧ 0 < q

/-- Rule 5: the parsed amount does not exceed the simulated balance. -/
def withinBalance (amountIn : JSNum) (balanceIn : ℚ) : Prop :=
  ∀ q, amountIn = .finite q → q ≤ balanceIn

/-- Rule 6: the computed output amount is finite and strictly positive. -/
def quotable (amtOut : JSNum) : Prop := ∃ q, amtOut = .finite q ∧ 0 < q

/-! ### Claim theorems -/

/-- C1: for every pair of selected tokens, input amount and slippage setting,
`rate` equals `price(tokenIn) / price(tokenOut)` and is NaN unless both prices
are finite and the output token's price is strictly positive; `amountOut`
equals `amountIn * rate` and is NaN unless the rate is finite and the amount is
a finite strictly positive number (a zero or negative amount yields NaN, never
0); `minReceived` equals `amountOut * (1 - slippageBps / 10000)` and is NaN
exactly when `amountOut` is NaN.  Every undefined result is the NaN sentinel
(the embedded functions are total, so nothing is thrown). -/
theorem C1_quote_nan_semantics (tokenIn tokenOut : Option Token) (amt : JSNum) (slip : ℤ) :
    (∀ p q, priceOfOpt tokenIn = .finite p → priceOfOpt tokenOut = .finite q → 0 < q →
      rate (priceOfOpt tokenIn) (priceOfOpt tokenOut) = .finite (p / q)) ∧
    ((¬ ∃ p q, priceOfOpt tokenIn = .finite p ∧ priceOfOpt tokenOut = .finite q ∧ 0 < q) →
      rate (priceOfOpt tokenIn) (priceOfOpt tokenOut) = .nan) ∧
    (∀ p a, rate (priceOfOpt tokenIn) (priceOfOpt tokenOut) = .finite p → amt = .finite a →
      0 < a →
      amountOut (rate (priceOfOpt tokenIn) (priceOfOpt tokenOut)) amt = .finite (a * p)) ∧
    ((¬ ∃ p a, rate (priceOfOpt tokenIn) (priceOfOpt tokenOut) = .finite p ∧ amt = .finite a ∧
        0 < a) →
      amountOut (rate (priceOfOpt tokenIn) (priceOfOpt tokenOut)) amt = .nan) ∧
    (∀ b, amountOut (rate (priceOfOpt tokenIn) (priceOfOpt tokenOut)) amt = .finite b →
      minReceived (amountOut (rate (priceOfOpt tokenIn) (priceOfOpt tokenOut)) amt) slip
        = .finite (b * (1 - (slip : ℚ) / 10000))) ∧
    (minReceived (amountOut (rate (priceOfOpt tokenIn) (priceOfOpt tokenOut)) amt) slip = .nan
      ↔ amountOut (rate (priceOfOpt tokenIn) (priceOfOpt tokenOut)) amt = .nan) := by
  refine ⟨(rate_eq _ _).1, (rate_eq _ _).2, (amountOut_eq _ _).1, (amountOut_eq _ _).2,
    (minReceived_eq _ _).1, ?_, ?_⟩
  · intro hmr
    rcases amountOut_nan_or_finite (rate (priceOfOpt tokenIn) (priceOfOpt tokenOut)) amt with
      hao | ⟨b, hb⟩
    · exact hao
    · rw [(minReceived_eq _ slip).1 b hb] at hmr
      exact nomatch hmr
  · intro hao
    rw [hao]
    exact (minReceived_eq _ slip).2 rfl

/-- Witness for C1 at spec scenario 2: tokenIn = BTC(50000), tokenOut =
ETH(3000) give the rate 50000/3000. -/
theorem C1_quote_nan_semantics_witness :
    rate (priceOfOpt (some ⟨"BTC", 50000, iconUrl "BTC"⟩))
      (priceOfOpt (some ⟨"ETH", 3000, iconUrl "ETH"⟩)) = .finite (50000 / 3000) :=
  (C1_quote_nan_semantics (some ⟨"BTC", 50000, iconUrl "BTC"⟩)
    (some ⟨"ETH", 3000, iconUrl "ETH"⟩) (.finite 2) 50).1 50000 3000 rfl rfl (by norm_num)

/-- C3: every token produced by `parsePrices` has a non-empty, upper-case-fixed
symbol and a strictly positive (finite, by type) price, and the list is
strictly sorted by symbol (in particular no two tokens share a symbol); thus
entries with non-positive or non-numeric price or blank symbol never appear. -/
theorem C3_normalize_invariants (data : JsonVal) (l : List Token)
    (h : parsePrices data = .ok l) :
    (∀ t ∈ l, t.symbol ≠ "" ∧ upperStr t.symbol = t.symbol ∧ 0 < t.price) ∧
    List.Pairwise (fun a b => symLe a b ∧ a.symbol ≠ b.symbol) l := by
  obtain ⟨hcanon, hnd, hsort⟩ := parsePrices_inv h
  constructor
  · intro t ht
    obtain ⟨h1, _, h3, h4, _⟩ := hcanon t ht
    exact ⟨h1, h3, h4⟩
  · exact hsort.and (List.pairwise_map.1 hnd)

/-- Witness for C3 on the scenario-1 feed. -/
theorem C3_normalize_invariants_witness :
    (∀ t ∈ btcEthTokens, t.symbol ≠ "" ∧ upperStr t.symbol = t.symbol ∧ 0 < t.price) ∧
    List.Pairwise (fun a b => symLe a b ∧ a.symbol ≠ b.symbol) btcEthTokens :=
  C3_normalize_invariants btcEthFeed btcEthTokens (by with_unfolding_all rfl)

/-- C5 (amended): normalization never raises for any input except an array
containing a `null` element (where JavaScript property access throws); in all
other cases it returns a token list, dropping malformed entries silently. -/
theorem C5_normalize_total (data : JsonVal)
    (h : ∀ rows, data = .arr rows → JsonVal.null ∉ rows) :
    ∃ l, parsePrices data = .ok l :=
  parsePrices_total h

/-- C5 counterexample: the array `[null]` makes `parsePrices` throw a
`TypeError` (reading `.currency` of `null`), refuting "never raises for every
input value whatsoever, including arrays whose elements are null". -/
theorem C5_counterexample : parsePrices (.arr [.null]) = .error "TypeError" := rfl

/-- Witness for C5 on a non-array input. -/
theorem C5_normalize_total_witness : ∃ l, parsePrices (JsonVal.str "nonsense") = .ok l :=
  C5_normalize_total (.str "nonsense") (fun _ h => nomatch h)

/-- C6 (amended): re-injecting the normalized output reproduces every token's
symbol and price in the same order, but each icon URL is rebuilt from the
upper-cased symbol (`canonToken`); the lists agree exactly iff every surviving
raw occurrence was already upper-case. -/
theorem C6_reinject_canonical (data : JsonVal) (l : List Token)
    (h : parsePrices data = .ok l) :
    parsePrices (reinject l) = .ok (l.map canonToken) :=
  parsePrices_reinject_aux h

/-- C6 counterexample: a lower-case raw feed normalizes to a token whose icon
URL uses the lower-case symbol, and re-injecting that token changes its icon
URL, so `normalize ∘ reinject` is not the identity token-for-token. -/
theorem C6_counterexample :
    parsePrices lowerFeed = .ok [⟨"USDT", 1, iconUrl "usdt"⟩] ∧
    parsePrices (reinject [⟨"USDT", 1, iconUrl "usdt"⟩]) = .ok [⟨"USDT", 1, iconUrl "USDT"⟩] ∧
    (⟨"USDT", 1, iconUrl "USDT"⟩ : Token) ≠ ⟨"USDT", 1, iconUrl "usdt"⟩ :=
  ⟨by with_unfolding_all rfl, by with_unfolding_all rfl, by decide⟩

/-- Witness for C6 on the lower-case feed. -/
theorem C6_reinject_canonical_witness :
    parsePrices (reinject [⟨"USDT", 1, iconUrl "usdt"⟩])
      = .ok ([(⟨"USDT", 1, iconUrl "usdt"⟩ : Token)].map canonToken) :=
  C6_reinject_canonical lowerFeed [⟨"USDT", 1, iconUrl "usdt"⟩] (by with_unfolding_all rfl)

/-- C7 (amended): every produced token's icon URL is `iconUrl` of some raw
string whose upper-case folding is the token's symbol — the raw-cased symbol of
the winning occurrence, not necessarily the upper-cased symbol itself. -/
theorem C7_icon_from_raw_occurrence (data : JsonVal) (l : List Token)
    (h : parsePrices data = .ok l) :
    ∀ t ∈ l, ∃ s, t.symbol = upperStr s ∧ t.iconUrl = iconUrl s :=
  fun t ht => ((parsePrices_inv h).1 t ht).2.2.2.2

/-- C7 counterexample: the same uppercase symbol `USDT` carries different icon
references depending on the raw feed's casing, refuting "pure function of the
uppercase symbol". -/
theorem C7_counterexample :
    parsePrices lowerFeed = .ok [⟨"USDT", 1, iconUrl "usdt"⟩] ∧
    parsePrices upperFeed = .ok [⟨"USDT", 1, iconUrl "USDT"⟩] ∧
    iconUrl "usdt" ≠ iconUrl "USDT" :=
  ⟨by with_unfolding_all rfl, by with_unfolding_all rfl, by decide⟩

/-- Witness for C7 on the upper-case feed. -/
theorem C7_icon_from_raw_occurrence_witness :
    ∃ s, (⟨"USDT", (1 : ℚ), iconUrl "USDT"⟩ : Token).symbol = upperStr s ∧
      (⟨"USDT", (1 : ℚ), iconUrl "USDT"⟩ : Token).iconUrl = iconUrl s :=
  C7_icon_from_raw_occurrence upperFeed [⟨"USDT", 1, iconUrl "USDT"⟩]
    (by with_unfolding_all rfl) _ (by simp)

/-- C9: `balanceFor` is a pure function (determinism is immediate in the
embedding: equal arguments give equal values); its value is the base-31 fold of
the character codes masked to 32 bits, reduced mod 9500, divided by 100 and
floored at a minimum of 1 — so it is at least 1 for every symbol. -/
theorem C9_pseudoBalance_spec (s : String) :
    pseudoBalance s =
      max 1 ((((s.data.foldl (fun x c => (x * 31 + c.toNat) % 2 ^ 32) 0) % 9500 : ℕ) : ℚ) / 100)
      ∧ 1 ≤ pseudoBalance s :=
  ⟨rfl, le_max_left _ _⟩

theorem inputUSD_eq (a p : JSNum) :
    (∀ x y, a = .finite x → p = .finite y → inputUSD a p = .finite (x * y)) ∧
    ((¬ ∃ x y, a = .finite x ∧ p = .finite y) → inputUSD a p = .nan) := by
  cases a with
  | finite x =>
      cases p with
      | finite y =>
          constructor
          · intro u v hu hv
            cases hu
            cases hv
            simp [inputUSD, numIsFinite, jsMul]
          · intro hne
            exact absurd ⟨x, y, rfl, rfl⟩ hne
      | nan => exact ⟨(fun u v _ hv => nomatch hv), (fun _ => by simp [inputUSD, numIsFinite])⟩
      | inf => exact ⟨(fun u v _ hv => nomatch hv), (fun _ => by simp [inputUSD, numIsFinite])⟩
      | negInf => exact ⟨(fun u v _ hv => nomatch hv), (fun _ => by simp [inputUSD, numIsFinite])⟩
  | nan => exact ⟨(fun u v hu _ => nomatch hu), (fun _ => by simp [inputUSD, numIsFinite])⟩
  | inf => exact ⟨(fun u v hu _ => nomatch hu), (fun _ => by simp [inputUSD, numIsFinite])⟩
  | negInf => exact ⟨(fun u v hu _ => nomatch hu), (fun _ => by simp [inputUSD, numIsFinite])⟩

theorem outputUSD_eq (a p : JSNum) :
    (∀ x y, a = .finite x → p = .finite y → outputUSD a p = .finite (x * y)) ∧
    ((¬ ∃ x y, a = .finite x ∧ p = .finite y) → outputUSD a p = .nan) := by
  cases a with
  | finite x =>
      cases p with
      | finite y =>
          constructor
          · intro u v hu hv
            cases hu
            cases hv
            simp [outputUSD, numIsFinite, jsMul]
          · intro hne
            exact absurd ⟨x, y, rfl, rfl⟩ hne
      | nan => exact ⟨(fun u v _ hv => nomatch hv), (fun _ => by simp [outputUSD, numIsFinite])⟩
      | inf => exact ⟨(fun u v _ hv => nomatch hv), (fun _ => by simp [outputUSD, numIsFinite])⟩
      | negInf => exact ⟨(fun u v _ hv => nomatch hv), (fun _ => by simp [outputUSD, numIsFinite])⟩
  | nan => exact ⟨(fun u v hu _ => nomatch hu), (fun _ => by simp [outputUSD, numIsFinite])⟩
  | inf => exact ⟨(fun u v hu _ => nomatch hu), (fun _ => by simp [outputUSD, numIsFinite])⟩
  | negInf => exact ⟨(fun u v hu _ => nomatch hu), (fun _ => by simp [outputUSD, numIsFinite])⟩

/-- C8 (amended): `inputUSD` is the product of the live typed amount and the
input price whenever BOTH are finite (this is the only condition — a finite
zero or negative amount yields a finite, possibly zero USD estimate, not NaN),
and NaN otherwise; `outputUSD` is the product of `amountOut` and the output
price whenever both are finite and NaN otherwise (so it IS NaN whenever the
pair is unquotable, because `amountOut` is then NaN). -/
theorem C8_usd_semantics (amtLive : JSNum) (tokenIn tokenOut : Option Token)
    (amtDebounced : JSNum) :
    (∀ x y, amtLive = .finite x → priceOfOpt tokenIn = .finite y →
      inputUSD amtLive (priceOfOpt tokenIn) = .finite (x * y)) ∧
    ((¬ ∃ x y, amtLive = .finite x ∧ priceOfOpt tokenIn = .finite y) →
      inputUSD amtLive (priceOfOpt tokenIn) = .nan) ∧
    (∀ x y,
      amountOut (rate (priceOfOpt tokenIn) (priceOfOpt tokenOut)) amtDebounced = .finite x →
      priceOfOpt tokenOut = .finite y →
      outputUSD (amountOut (rate (priceOfOpt tokenIn) (priceOfOpt tokenOut)) amtDebounced)
        (priceOfOpt tokenOut) = .finite (x * y)) ∧
    ((¬ ∃ x y,
        amountOut (rate (priceOfOpt tokenIn) (priceOfOpt tokenOut)) amtDebounced = .finite x ∧
        priceOfOpt tokenOut = .finite y) →
      outputUSD (amountOut (rate (priceOfOpt tokenIn) (priceOfOpt tokenOut)) amtDebounced)
        (priceOfOpt tokenOut) = .nan) :=
  ⟨(inputUSD_eq _ _).1, (inputUSD_eq _ _).2, (outputUSD_eq _ _).1, (outputUSD_eq _ _).2⟩

/-- C8 counterexample: with BTC selected at price 1 and a typed amount of 0 the
quote is unquotable (`amountOut` is NaN), yet `inputUSD` is the finite number
0, not NaN — refuting "inputUSD is NaN whenever the typed amount would not
yield a quotable amountOut". -/
theorem C8_counterexample :
    inputUSD (.finite 0) (priceOfOpt (some ⟨"BTC", 1, iconUrl "BTC"⟩)) = .finite 0 ∧
    amountOut (rate (priceOfOpt (some ⟨"BTC", 1, iconUrl "BTC"⟩))
      (priceOfOpt (some ⟨"ETH", 1, iconUrl "ETH"⟩))) (.finite 0) = .nan ∧
    JSNum.finite 0 ≠ JSNum.nan :=
  ⟨by with_unfolding_all rfl, by with_unfolding_all rfl, by decide⟩

/-- Witness for C8: a live amount of 2 with BTC at 50000 gives an inputUSD of
100000. -/
theorem C8_usd_semantics_witness :
    inputUSD (.finite 2) (priceOfOpt (some ⟨"BTC", 50000, iconUrl "BTC"⟩))
      = .finite (2 * 50000) :=
  (C8_usd_semantics (.finite 2) (some ⟨"BTC", 50000, iconUrl "BTC"⟩)
    (some ⟨"ETH", 3000, iconUrl "ETH"⟩) (.finite 2)).1 2 50000 rfl rfl

/-- C10: `safeParseNumber` strips every comma, trims, and then: an empty
remainder or a remainder that does not convert to a finite number yields the
NaN sentinel (never 0, and the function is total so nothing is thrown), and
any other remainder yields the converted number; concretely `"1,000"` parses
to 1000 while `""` and `"   "` parse to NaN. -/
theorem C10_safeParseNumber_spec (v : String) :
    (trimList (v.data.filter (fun c => c ≠ ',')) = [] → safeParseNumber v = .nan) ∧
    (∀ q, trimList (v.data.filter (fun c => c ≠ ',')) ≠ [] →
      jsStringToNumber (trimList (v.data.filter (fun c => c ≠ ','))) = .finite q →
      safeParseNumber v = .finite q) ∧
    ((¬ ∃ q, jsStringToNumber (trimList (v.data.filter (fun c => c ≠ ','))) = .finite q) →
      safeParseNumber v = .nan) ∧
    safeParseNumber "1,000" = .finite 1000 ∧
    safeParseNumber "" = .nan ∧
    safeParseNumber "   " = .nan := by
  refine ⟨?_, ?_, ?_, by with_unfolding_all rfl, by with_unfolding_all rfl,
    by with_unfolding_all rfl⟩
  · intro h
    simp only [safeParseNumber]
    rw [if_pos h]
  · intro q hne hq
    simp only [safeParseNumber]
    rw [if_neg hne, hq]
  · intro hne
    simp only [safeParseNumber]
    by_cases hnil : trimList (v.data.filter (fun c => c ≠ ',')) = []
    · rw [if_pos hnil]
    · rw [if_neg hnil]
      cases hj : jsStringToNumber (trimList (v.data.filter (fun c => c ≠ ','))) with
      | finite q => exact absurd ⟨q, hj⟩ hne
      | nan => rfl
      | inf => rfl
      | negInf => rfl

/-- Witness for C10 at the input `"1,000"`. -/
theorem C10_safeParseNumber_spec_witness : safeParseNumber "1,000" = .finite 1000 :=
  (C10_safeParseNumber_spec "1,000").2.1 1000 (by decide) (by with_unfolding_all rfl)

theorem finPos_of_guard {a : JSNum} (h : ¬((!numIsFinite a || jsLe0 a) = true)) :
    ∃ q, a = .finite q ∧ 0 < q := by
  cases a with
  | finite q =>
      refine ⟨q, rfl, ?_⟩
      by_contra hq
      exact h (by simp [numIsFinite, jsLe0, not_lt.1 hq])
  | nan => exact absurd (by simp [numIsFinite]) h
  | inf => exact absurd (by simp [numIsFinite]) h
  | negInf => exact absurd (by simp [numIsFinite]) h

theorem not_finPos_of_guard {a : JSNum} (h : (!numIsFinite a || jsLe0 a) = true) :
    ¬ ∃ q, a = .finite q ∧ 0 < q := by
  rintro ⟨q, rfl, hq⟩
  simp [numIsFinite, jsLe0] at h
  exact absurd hq (not_lt.2 h)

theorem withinBalance_of_guard {a : JSNum} {b : ℚ} (h : ¬(jsGtQ a b = true)) :
    ∀ q, a = .finite q → q ≤ b := by
  intro q hq
  subst hq
  simp [jsGtQ] at h
  exact h

theorem not_withinBalance_of_guard {a : JSNum} {b : ℚ} (hval : ∃ q, a = .finite q ∧ 0 < q)
    (h : jsGtQ a b = true) : ¬ ∀ q, a = .finite q → q ≤ b := by
  rcases hval with ⟨q, rfl, _⟩
  intro hall
  simp [jsGtQ] at h
  exact absurd (hall q rfl) (not_le.2 h)

/-- C2: the validator evaluates the six rules of the spec in source order with
short-circuit: the verdict is ok iff all six rules pass, and when a state
fails several rules the message is that of the earliest failing rule ("Pick
tokens", "Pick two different tokens", "Enter an amount", "Enter a valid
amount", "Insufficient balance", "Unable to quote price" in that order). -/
theorem C2_validator_priority (tokenIn tokenOut : Option Token) (amountInRaw : String)
    (amountIn : JSNum) (balanceIn : ℚ) (amtOut : JSNum) :
    ((validation tokenIn tokenOut amountInRaw amountIn balanceIn amtOut).ok = true ↔
      bothSelected tokenIn tokenOut ∧ distinctSymbols tokenIn tokenOut ∧
      amountTextPresent amountInRaw ∧ amountValid amountIn ∧
      withinBalance amountIn balanceIn ∧ quotable amtOut) ∧
    (¬ bothSelected tokenIn tokenOut →
      (validation tokenIn tokenOut amountInRaw amountIn balanceIn amtOut).msg = "Pick tokens") ∧
    (bothSelected tokenIn tokenOut → ¬ distinctSymbols tokenIn tokenOut →
      (validation tokenIn tokenOut amountInRaw amountIn balanceIn amtOut).msg
        = "Pick two different tokens") ∧
    (bothSelected tokenIn tokenOut → distinctSymbols tokenIn tokenOut →
      ¬ amountTextPresent amountInRaw →
      (validation tokenIn tokenOut amountInRaw amountIn balanceIn amtOut).msg
        = "Enter an amount") ∧
    (bothSelected tokenIn tokenOut → distinctSymbols tokenIn tokenOut →
      amountTextPresent amountInRaw → ¬ amountValid amountIn →
      (validation tokenIn tokenOut amountInRaw amountIn balanceIn amtOut).msg
        = "Enter a valid amount") ∧
    (bothSelected tokenIn tokenOut → distinctSymbols tokenIn tokenOut →
      amountTextPresent amountInRaw → amountValid amountIn →
      ¬ withinBalance amountIn balanceIn →
      (validation tokenIn tokenOut amountInRaw amountIn balanceIn amtOut).msg
        = "Insufficient balance") ∧
    (bothSelected tokenIn tokenOut → distinctSymbols tokenIn tokenOut →
      amountTextPresent amountInRaw → amountValid amountIn →
      withinBalance amountIn balanceIn → ¬ quotable amtOut →
      (validation tokenIn tokenOut amountInRaw amountIn balanceIn amtOut).msg
        = "Unable to quote price") := by
  cases tokenIn with
  | none =>
      have hv : validation none tokenOut amountInRaw amountIn balanceIn amtOut
          = ⟨false, "Pick tokens"⟩ := by
        cases tokenOut <;> rfl
      refine ⟨?_, ?_, ?_, ?_, ?_, ?_, ?_⟩
      · rw [hv]
        simp [bothSelected]
      · intro _
        rw [hv]
      · intro h1
        exact absurd rfl h1.1
      · intro h1
        exact absurd rfl h1.1
      · intro h1
        exact absurd rfl h1.1
      · intro h1
        exact absurd rfl h1.1
      · intro h1
        exact absurd rfl h1.1
  | some tIn =>
  cases tokenOut with
  | none =>
      have hv : validation (some tIn) none amountInRaw amountIn balanceIn amtOut
          = ⟨false, "Pick tokens"⟩ := rfl
      refine ⟨?_, ?_, ?_, ?_, ?_, ?_, ?_⟩
      · rw [hv]
        simp [bothSelected]
      · intro _
        rw [hv]
      · intro h1
        exact absurd rfl h1.2
      · intro h1
        exact absurd rfl h1.2
      · intro h1
        exact absurd rfl h1.2
      · intro h1
        exact absurd rfl h1.2
      · intro h1
        exact absurd rfl h1.2
  | some tOut =>
  have hR1 : bothSelected (some tIn) (some tOut) := by
    constructor
    · intro h
      exact nomatch h
    · intro h
      exact nomatch h
  by_cases h2 : tIn.symbol = tOut.symbol
  · have hv : validation (some tIn) (some tOut) amountInRaw amountIn balanceIn amtOut
        = ⟨false, "Pick two different tokens"⟩ := by
      simp only [validation]
      rw [if_pos h2]
    have hnR2 : ¬ distinctSymbols (some tIn) (some tOut) := fun hd => hd tIn tOut rfl rfl h2
    refine ⟨?_, ?_, ?_, ?_, ?_, ?_, ?_⟩
    · rw [hv]
      constructor
      · intro hh
        exact absurd hh Bool.false_ne_true
      · intro hconj
        exact absurd hconj.2.1 hnR2
    · intro hn1
      exact absurd hR1 hn1
    · intro _ _
      rw [hv]
    · intro _ hd _
      exact absurd h2 (hd tIn tOut rfl rfl)
    · intro _ hd _ _
      exact absurd h2 (hd tIn tOut rfl rfl)
    · intro _ hd _ _ _
      exact absurd h2 (hd tIn tOut rfl rfl)
    · intro _ hd _ _ _ _
      exact absurd h2 (hd tIn tOut rfl rfl)
  · have hR2 : distinctSymbols (some tIn) (some tOut) := by
      intro a b ha hb
      injection ha with ha2
      injection hb with hb2
      rw [← ha2, ← hb2]
      exact h2
    by_cases h3 : trimStr amountInRaw = ""
    · have hv : validation (some tIn) (some tOut) amountInRaw amountIn balanceIn amtOut
          = ⟨false, "Enter an amount"⟩ := by
        simp only [validation]
        rw [if_neg h2, if_pos h3]
      refine ⟨?_, ?_, ?_, ?_, ?_, ?_, ?_⟩
      · rw [hv]
        constructor
        · intro hh
          exact absurd hh Bool.false_ne_true
        · intro hconj
          exact absurd h3 hconj.2.2.1
      · intro hn1
        exact absurd hR1 hn1
      · intro _ hn2
        exact absurd hR2 hn2
      · intro _ _ _
        rw [hv]
      · intro _ _ hp _
        exact absurd h3 hp
      · intro _ _ hp _ _
        exact absurd h3 hp
      · intro _ _ hp _ _ _
        exact absurd h3 hp
    · by_cases h4 : (!numIsFinite amountIn || jsLe0 amountIn) = true
      · have hv : validation (some tIn) (some tOut) amountInRaw amountIn balanceIn amtOut
            = ⟨false, "Enter a valid amount"⟩ := by
          simp only [validation]
          rw [if_neg h2, if_neg h3, if_pos h4]
        have hnR4 : ¬ amountValid amountIn := not_finPos_of_guard h4
        refine ⟨?_, ?_, ?_, ?_, ?_, ?_, ?_⟩
        · rw [hv]
          constructor
          · intro hh
            exact absurd hh Bool.false_ne_true
          · intro hconj
            exact absurd hconj.2.2.2.1 hnR4
        · intro hn1
          exact absurd hR1 hn1
        · intro _ hn2
          exact absurd hR2 hn2
        · intro _ _ hp
          exact absurd h3 hp
        · intro _ _ _ _
          rw [hv]
        · intro _ _ _ hval _
          exact absurd hval hnR4
        · intro _ _ _ hval _ _
          exact absurd hval hnR4
      · have hR4 : amountValid amountIn := finPos_of_guard h4
        by_cases h5 : jsGtQ amountIn balanceIn = true
        · have hv : validation (some tIn) (some tOut) amountInRaw amountIn balanceIn amtOut
              = ⟨false, "Insufficient balance"⟩ := by
            simp only [validation]
            rw [if_neg h2, if_neg h3, if_neg h4, if_pos h5]
          have hnR5 : ¬ withinBalance amountIn balanceIn := not_withinBalance_of_guard hR4 h5
          refine ⟨?_, ?_, ?_, ?_, ?_, ?_, ?_⟩
          · rw [hv]
            constructor
            · intro hh
              exact absurd hh Bool.false_ne_true
            · intro hconj
              exact absurd hconj.2.2.2.2.1 hnR5
          · intro hn1
            exact absurd hR1 hn1
          · intro _ hn2
            exact absurd hR2 hn2
          · intro _ _ hp
            exact absurd h3 hp
          · intro _ _ _ hn4
            exact absurd hR4 hn4
          · intro _ _ _ _ _
            rw [hv]
          · intro _ _ _ _ hwb _
            exact absurd hwb hnR5
        · have hR5 : withinBalance amountIn balanceIn := withinBalance_of_guard h5
          by_cases h6 : (!numIsFinite amtOut || jsLe0 amtOut) = true
          · have hv : validation (some tIn) (some tOut) amountInRaw amountIn balanceIn amtOut
                = ⟨false, "Unable to quote price"⟩ := by
              simp only [validation]
              rw [if_neg h2, if_neg h3, if_neg h4, if_neg h5, if_pos h6]
            have hnR6 : ¬ quotable amtOut := not_finPos_of_guard h6
            refine ⟨?_, ?_, ?_, ?_, ?_, ?_, ?_⟩
            · rw [hv]
              constructor
              · intro hh
                exact absurd hh Bool.false_ne_true
              · intro hconj
                exact absurd hconj.2.2.2.2.2 hnR6
            · intro hn1
              exact absurd hR1 hn1
            · intro _ hn2
              exact absurd hR2 hn2
            · intro _ _ hp
              exact absurd h3 hp
            · intro _ _ _ hn4
              exact absurd hR4 hn4
            · intro _ _ _ _ hn5
              exact absurd hR5 hn5
            · intro _ _ _ _ _ _
              rw [hv]
          · have hR6 : quotable amtOut := finPos_of_guard h6
            have hv : validation (some tIn) (some tOut) amountInRaw amountIn balanceIn amtOut
                = ⟨true, ""⟩ := by
              simp only [validation]
              rw [if_neg h2, if_neg h3, if_neg h4, if_neg h5, if_neg h6]
            refine ⟨?_, ?_, ?_, ?_, ?_, ?_, ?_⟩
            · rw [hv]
              constructor
              · intro _
                exact ⟨hR1, hR2, h3, hR4, hR5, hR6⟩
              · intro _
                rfl
            · intro hn1
              exact absurd hR1 hn1
            · intro _ hn2
              exact absurd hR2 hn2
            · intro _ _ hp
              exact absurd h3 hp
            · intro _ _ _ hn4
              exact absurd hR4 hn4
            · intro _ _ _ _ hn5
              exact absurd hR5 hn5
            · intro _ _ _ _ _ hn6
              exact absurd hR6 hn6

/-- Witness for C2: a fully valid state (BTC to ETH, amount text "2", amount 2,
balance 90, output 1/30) is accepted. -/
theorem C2_validator_priority_witness :
    (validation (some ⟨"BTC", 50000, iconUrl "BTC"⟩) (some ⟨"ETH", 3000, iconUrl "ETH"⟩)
      "2" (.finite 2) 90 (.finite (1 / 30))).ok = true :=
  (C2_validator_priority (some ⟨"BTC", 50000, iconUrl "BTC"⟩)
    (some ⟨"ETH", 3000, iconUrl "ETH"⟩) "2" (.finite 2) 90 (.finite (1 / 30))).1.mpr
    ⟨⟨(fun h => nomatch h), (fun h => nomatch h)⟩,
      (fun a b ha hb => by
        injection ha with ha2
        injection hb with hb2
        rw [← ha2, ← hb2]
        decide),
      (show trimStr "2" ≠ "" by decide),
      ⟨2, rfl, by norm_num⟩,
      (fun q hq => by
        injection hq with hq2
        rw [← hq2]
        norm_num),
      ⟨1 / 30, rfl, by norm_num⟩⟩

/-- C4: de-duplication is last-wins with map-overwrite semantics — for every
feed, the normalized list's (unique) entry for an uppercase symbol `u` carries
the price and icon of the LAST accepted occurrence whose upper-cased symbol is
`u`, in iteration order; concretely, the feed
`[{currency:"usdt",price:"1.00"},{currency:"USDT",price:2}]` normalizes to a
single USDT entry with price 2. -/
theorem C4_lastWins :
    (∀ (data : JsonVal) (out l : List Token), collect data = .ok out →
      parsePrices data = .ok l → ∀ u : String,
      l.filter (fun t => t.symbol = u) =
        ((out.filter (fun t => upperStr t.symbol = u)).getLast?).elim []
          (fun t => [⟨u, t.price, t.iconUrl⟩])) ∧
    collect usdtFeed = .ok usdtCollected ∧
    parsePrices usdtFeed = .ok [⟨"USDT", 2, iconUrl "USDT"⟩] := by
  refine ⟨?_, by with_unfolding_all rfl, by with_unfolding_all rfl⟩
  intro data out l hc hp u
  obtain ⟨out2, hc2, hl⟩ := parsePrices_ok hp
  rw [hc] at hc2
  injection hc2 with he
  subst he
  have hinv := buildMap_inv (collect_pushed hc)
  have hnd := buildMap_keys_nodup out
  have hperm : List.Perm (l.filter (fun t => t.symbol = u))
      (((buildMap out).map Prod.snd).filter (fun t => t.symbol = u)) := by
    rw [hl]
    exact (List.perm_insertionSort symLe _).filter _
  have hvf := values_filter u (buildMap out) (fun p hp2 => (hinv p hp2).1) hnd
  rw [buildMap_lookup u out] at hvf
  cases hgl : (out.filter (fun t => upperStr t.symbol = u)).getLast? with
  | none =>
      rw [hgl] at hvf
      simp only [Option.map_none', Option.elim] at hvf
      rw [hvf] at hperm
      rw [hperm.eq_nil]
      rfl
  | some t =>
      rw [hgl] at hvf
      simp only [Option.map_some', Option.elim] at hvf
      rw [hvf] at hperm
      rw [hperm.eq_singleton]
      rfl

/-- Witness for C4 on the duplicate-USDT feed at symbol USDT. -/
theorem C4_lastWins_witness :
    ([(⟨"USDT", (2 : ℚ), iconUrl "USDT"⟩ : Token)].filter (fun t => t.symbol = "USDT")) =
      ((usdtCollected.filter (fun t => upperStr t.symbol = "USDT")).getLast?).elim []
        (fun t => [⟨"USDT", t.price, t.iconUrl⟩]) :=
  C4_lastWins.1 usdtFeed usdtCollected [⟨"USDT", 2, iconUrl "USDT"⟩]
    (by with_unfolding_all rfl) (by with_unfolding_all rfl) "USDT"
